import Mathlib

/-!
# Verification of the ecs-js World core (`src/core.js`)

Shallow embedding of the World orchestrator of `src/core.js`: component
descriptors, map-mode component stores (assoc lists standing for JS `Map`s,
which preserve insertion order), the entity registry, the change tracker,
the deferred-mutation queue, strict-mode policy handling, the query
candidate cache, and the tick/flush lifecycle.

Modelling conventions:
* JS exceptions are `Except String`; since a JS throw does not roll back
  earlier mutations, every fallible operation returns the (possibly
  partially mutated) world *alongside* the `Except` result.
* JS `Map`s are insertion-ordered assoc lists (`aset` updates in place or
  appends, like `Map.prototype.set`); JS `Set`s are insertion-ordered
  duplicate-free lists.
* Component records are JS objects: insertion-ordered `String`-keyed assoc
  lists; `Object.assign` is `rassign` (per-key overwrite-or-append).
* `deepClone` rebuilds an equal plain-data tree (reference identity is not
  modelled); functions are represented by the `Value.fn` constructor so the
  `assertNoFunctions` walk is meaningful.
* Wall-clock time, `performance.now`, the `onTick` hook, console logging,
  the SoA store mode, the `_components` diagnostic registry and the debug
  facade are observationally irrelevant to the claims and are omitted.
* The scheduler field (`World → World`) and raw function commands
  (`command(fn)`) would make `World` a negative-recursive type, so the
  scheduler is passed to `tick` explicitly and the command queue carries
  the five structural/content operations that `_applyOp` dispatches on.
-/

namespace EcsJs

/- JS values that can appear in component data: plain data plus a marker
constructor for function values (which `assertNoFunctions` must reject).
Nested objects/arrays use the mutual list types so that structural
recursion over the tree is available. -/
mutual
inductive Value where
  | num (n : Int)
  | str (s : String)
  | bool (b : Bool)
  | null
  | fn (tag : Nat)
  | arr (xs : ValueList)
  | obj (fs : FieldList)

inductive ValueList where
  | nil
  | cons (v : Value) (rest : ValueList)

inductive FieldList where
  | nil
  | cons (k : String) (v : Value) (rest : FieldList)
end

/-- A component record: a JS object, i.e. an insertion-ordered map from
field names to values. -/
abbrev Rcd := List (String × Value)

/-- Lookup in an insertion-ordered assoc list (JS `Map.get` / property read). -/
def alookup {κ : Type} [DecidableEq κ] {α : Type} : List (κ × α) → κ → Option α
  | [], _ => none
  | p :: rest, k => if p.1 = k then some p.2 else alookup rest k

/-- JS `Map.set` / property write: overwrite in place if the key is present,
else append, preserving insertion order. -/
def aset {κ : Type} [DecidableEq κ] {α : Type} : List (κ × α) → κ → α → List (κ × α)
  | [], k, v => [(k, v)]
  | p :: rest, k, v => if p.1 = k then (k, v) :: rest else p :: aset rest k v

/-- JS `Map.delete`: remove the binding, reporting whether one was present. -/
def adel {κ : Type} [DecidableEq κ] {α : Type} : List (κ × α) → κ → List (κ × α) × Bool
  | [], _ => ([], false)
  | p :: rest, k =>
    if p.1 = k then (rest, true)
    else
      let r := adel rest k
      (p :: r.1, r.2)

/-- `Object.assign(target, src)`: copy every field of `src` onto `target`
in field order. -/
def rassign (target src : Rcd) : Rcd :=
  src.foldl (fun acc p => aset acc p.1 p.2) target

/-- `Object.assign` of a fresh object with `a` and `b`: copy the fields of `a`, then of `b`. -/
def mergeRcd (a b : Rcd) : Rcd :=
  rassign (rassign [] a) b

/- `deepClone` from `core.js`: rebuild the plain-data tree (host objects
and functions are returned by reference; the observable structure is
unchanged). -/
mutual
def deepClone : Value → Value
  | .arr xs => .arr (deepCloneList xs)
  | .obj fs => .obj (deepCloneFields fs)
  | v => v

def deepCloneList : ValueList → ValueList
  | .nil => .nil
  | .cons v rest => .cons (deepClone v) (deepCloneList rest)

def deepCloneFields : FieldList → FieldList
  | .nil => .nil
  | .cons k v rest => .cons k (deepClone v) (deepCloneFields rest)
end

/-- `deepClone` applied to a top-level record object. -/
def deepCloneRcd (r : Rcd) : Rcd :=
  r.map (fun p => (p.1, deepClone p.2))

/- `assertNoFunctions` walk: does a value contain a function anywhere? -/
mutual
def hasFn : Value → Bool
  | .fn _ => true
  | .arr xs => hasFnList xs
  | .obj fs => hasFnFields fs
  | _ => false

def hasFnList : ValueList → Bool
  | .nil => false
  | .cons v rest => hasFn v || hasFnList rest

def hasFnFields : FieldList → Bool
  | .nil => false
  | .cons _ v rest => hasFn v || hasFnFields rest
end

/-- `assertNoFunctions` applied to a top-level record object. -/
def rcdHasFn (r : Rcd) : Bool :=
  r.any (fun p => hasFn p.2)

/-- Component descriptor (`defineComponent`): opaque symbol identity
(modelled by a `Nat`), the symbol description string (the component
name), frozen defaults, and the optional validator. -/
structure Comp where
  key : Nat
  name : String
  defaults : Rcd
  validate : Option (Rcd → Bool)

/-- A map-mode component store (`makeMapStore`): entity id → record, in
insertion order (the `fast` mirror object is observationally redundant). -/
abbrev StoreMap := List (Nat × Rcd)

/-- Strict lexicographic order on char lists by code point (for component
names, which are BMP strings, this coincides with the UTF-16 code-unit
order JS `Array.prototype.sort` uses on strings). -/
def strLtData : List Char → List Char → Bool
  | _ :: _, [] => false
  | [], _ :: _ => true
  | [], [] => false
  | a :: as, b :: bs =>
    if a.toNat < b.toNat then true
    else if b.toNat < a.toNat then false
    else strLtData as bs

/-- The non-strict JS string order: `a ≤ b` iff not `b < a`. -/
def jsStrLe (a b : String) : Bool :=
  !(strLtData b.data a.data)

/-- Ascending numeric sort (`.sort((a, b) => a - b)` resp. the default
string sort); the source sorts with the built-in stable sort, modelled by
`insertionSort`. -/
def sortNats (l : List Nat) : List Nat :=
  List.insertionSort (· ≤ ·) l

/-- Ascending JS default (string) sort. -/
def sortStrs (l : List String) : List String :=
  List.insertionSort (fun a b => jsStrLe a b = true) l

/-- `entityIds()`: the store keys, sorted ascending (numeric comparator). -/
def entityIds (s : StoreMap) : List Nat :=
  sortNats (s.map Prod.fst)

/-- A queued deferred operation (`_cmd` entries built by `command([...])`). -/
inductive Cmd where
  | destroy (id : Nat)
  | add (id : Nat) (c : Comp) (data : Rcd)
  | remove (id : Nat) (c : Comp)
  | set (id : Nat) (c : Comp) (patch : Rcd)
  | mutate (id : Nat) (c : Comp) (f : Rcd → Rcd)

/-- Context handed to a strict-mode handler (the `world` and `args` fields
are omitted: handlers are modelled as pure decision functions). -/
structure StrictCtx where
  op : String
  error : String

/-- Observable behaviour of a strict-mode handler invocation: whether it
called `ctx.defer()` at some point, and how it finished. -/
inductive HRes where
  | strDefer          -- returned the string "defer"
  | strIgnore         -- returned the string "ignore"
  | boolFalse         -- returned false
  | other             -- returned anything else (incl. undefined)
  | raise (msg : String)  -- threw its own error

abbrev Handler := StrictCtx → Bool × HRes

/-- The World state (`class World`, map store mode). -/
structure World where
  store : List (Nat × StoreMap) := []      -- `_store`: Comp.key → store
  cache : List (String × List Nat) := []   -- `_cache`: query candidate cache
  changed : List (Nat × List Nat) := []    -- `_changed`: Comp.key → Set<id>
  cmd : List Cmd := []                     -- `_cmd`: deferred operations
  free : List Nat := []                    -- `_free`: id free list (array)
  nextId : Nat := 1                        -- `_nextId`
  alive : List Nat := []                   -- `alive`: Set<id>, insertion order
  inTick : Bool := false                   -- `_inTick`
  strict : Bool := false                   -- `strict`
  strictHandler : Option Handler := none   -- `_strictHandler`
  step : Nat := 0                          -- `step`

/-- A fresh world (`new World()` with default options). -/
def initWorld : World := {}

namespace World

/-- `command(op)`: push onto the deferred queue. -/
def pushCmd (w : World) (c : Cmd) : World :=
  { w with cmd := w.cmd ++ [c] }

/-- `_markChanged(ckey, id)`. -/
def markChanged (w : World) (ckey id : Nat) : World :=
  match alookup w.changed ckey with
  | none => { w with changed := w.changed ++ [(ckey, [id])] }
  | some s => { w with changed := aset w.changed ckey (if id ∈ s then s else s ++ [id]) }

/-- `_invalidateCaches()`. -/
def invalidateCaches (w : World) : World :=
  { w with cache := [] }

/-- `_mapFor(Comp)`: fetch the store for a component, instantiating an
empty one on first touch. -/
def mapFor (w : World) (c : Comp) : World × StoreMap :=
  match alookup w.store c.key with
  | some s => (w, s)
  | none => ({ w with store := w.store ++ [(c.key, ([] : StoreMap))] }, [])

/-- Overwrite the store registered under a component key. -/
def putStore (w : World) (k : Nat) (s : StoreMap) : World :=
  { w with store := aset w.store k s }

/-- Pure read of a stored record (the observable outcome of `get`). -/
def read (w : World) (id : Nat) (c : Comp) : Option Rcd :=
  (alookup w.store c.key).bind (fun s => alookup s id)

/-- `changed(id, Comp)`. -/
def changedHas (w : World) (ckey id : Nat) : Bool :=
  match alookup w.changed ckey with
  | some s => decide (id ∈ s)
  | none => false

/-- `create()`: pop the free list (LIFO, `Array.prototype.pop`) or allocate
the next id; mark alive. Does *not* touch the query cache. -/
def create (w : World) : World × Nat :=
  match w.free.getLast? with
  | some id =>
      ({ w with free := w.free.dropLast,
                alive := if id ∈ w.alive then w.alive else w.alive ++ [id] }, id)
  | none =>
      ({ w with nextId := w.nextId + 1,
                alive := if w.nextId ∈ w.alive then w.alive else w.alive ++ [w.nextId] },
       w.nextId)

/-- `_handleStrictDuringTick(op, args, fallback)`. A thrown handler error
is caught and logged; the *original* error is rethrown. -/
def handleStrictDuringTick (w : World) (op : String) (fallback : World → World) :
    World × Except String Bool :=
  -- `.ok true` stands for the return value "defer", `.ok false` for "ignore".
  let err := op ++ ": structural mutation during tick (strict)"
  match w.strictHandler with
  | none => (w, .error err)
  | some h =>
    let res := h ⟨op, err⟩
    let calledDefer := res.1
    let w1 := if calledDefer then fallback w else w
    match res.2 with
    | .raise _ => (w1, .error err)
    | .strDefer => if calledDefer then (w1, .ok true) else (fallback w1, .ok true)
    | .strIgnore => if calledDefer then (w1, .ok true) else (w1, .ok false)
    | .boolFalse => if calledDefer then (w1, .ok true) else (w1, .ok false)
    | .other => if calledDefer then (w1, .ok true) else (w1, .error err)

/-- Immediate part of `destroy`: purge every store (marking changed per
purged store), un-mark alive, recycle the id, invalidate the cache. -/
def destroyNow (w : World) (id : Nat) : World :=
  let pairs : List (Nat × (StoreMap × Bool)) := w.store.map (fun p => (p.1, adel p.2 id))
  let w1 := { w with store := pairs.map (fun (p : Nat × (StoreMap × Bool)) => (p.1, p.2.1)) }
  let w2 := pairs.foldl (fun acc p => if p.2.2 then acc.markChanged p.1 id else acc) w1
  { w2 with alive := w2.alive.erase id, free := w2.free ++ [id], cache := [] }

/-- `destroy(id)`. -/
def destroy (w : World) (id : Nat) : World × Except String (Option Bool) :=
  if id ∈ w.alive then
    if w.inTick then
      if w.strict then
        match w.handleStrictDuringTick "destroy" (fun w0 => w0.pushCmd (.destroy id)) with
        | (w1, .error e) => (w1, .error e)
        | (w1, .ok _) => (w1, .ok none)
      else (w.pushCmd (.destroy id), .ok none)
    else (w.destroyNow id, .ok (some true))
  else (w, .ok (some false))

/-- Does the validator reject this candidate record? -/
def validateFails (c : Comp) (r : Rcd) : Bool :=
  match c.validate with
  | some v => !(v r)
  | none => false

/-- `add(id, Comp, data)`. -/
def add (w : World) (id : Nat) (c : Comp) (data : Rcd) :
    World × Except String (Option Rcd) :=
  if id ∈ w.alive then
    if w.inTick then
      if w.strict then
        match w.handleStrictDuringTick "add" (fun w0 => w0.pushCmd (.add id c data)) with
        | (w1, .error e) => (w1, .error e)
        | (w1, .ok _) => (w1, .ok none)
      else (w.pushCmd (.add id c data), .ok none)
    else
      let r := mergeRcd (deepCloneRcd c.defaults) (deepCloneRcd data)
      if rcdHasFn r then
        (w, .error ("Component \"" ++ c.name ++ "\": function values are not allowed in component data"))
      else if validateFails c r then
        (w, .error ("Validation failed for component " ++ c.name))
      else
        let ws := w.mapFor c
        let w1 := (ws.1.putStore c.key (aset ws.2 id r)).markChanged c.key id
        (w1.invalidateCaches, .ok (some r))
  else (w, .error "add: entity not alive")

/-- `get(id, Comp)` with its `_mapFor` store-instantiation side effect. -/
def getW (w : World) (id : Nat) (c : Comp) : World × Option Rcd :=
  let ws := w.mapFor c
  (ws.1, alookup ws.2 id)

/-- `remove(id, Comp)`. -/
def remove (w : World) (id : Nat) (c : Comp) : World × Except String (Option Bool) :=
  if w.inTick then
    if w.strict then
      match w.handleStrictDuringTick "remove" (fun w0 => w0.pushCmd (.remove id c)) with
      | (w1, .error e) => (w1, .error e)
      | (w1, .ok _) => (w1, .ok none)
    else (w.pushCmd (.remove id c), .ok none)
  else
    let ws := w.mapFor c
    let d := adel ws.2 id
    let w1 := ws.1.putStore c.key d.1
    if d.2 then (((w1.markChanged c.key id).invalidateCaches), .ok (some true))
    else (w1, .ok (some false))

/-- `set(id, Comp, patch)`: validate the would-be merged record before
committing the in-place patch. -/
def set (w : World) (id : Nat) (c : Comp) (patch : Rcd) :
    World × Except String (Option Rcd) :=
  if w.inTick then
    if w.strict then
      match w.handleStrictDuringTick "set" (fun w0 => w0.pushCmd (.set id c patch)) with
      | (w1, .error e) => (w1, .error e)
      | (w1, .ok _) => (w1, .ok none)
    else (w.pushCmd (.set id c patch), .ok none)
  else
    match w.getW id c with
    | (w1, none) => (w1, .error "set: entity lacks component")
    | (w1, some r) =>
      let next := mergeRcd r patch
      if rcdHasFn next then
        (w1, .error ("Component \"" ++ c.name ++ "\": function values are not allowed in component data"))
      else if validateFails c next then
        (w1, .error ("Validation failed for component " ++ c.name))
      else
        let r2 := rassign r patch
        let ws := w1.mapFor c
        ((ws.1.putStore c.key (aset ws.2 id r2)).markChanged c.key id, .ok (some r2))

/-- `mutate(id, Comp, fn)`: `fn` edits the live record in place, so the
store is updated even when the no-functions re-check then throws. -/
def mutate (w : World) (id : Nat) (c : Comp) (f : Rcd → Rcd) :
    World × Except String (Option Rcd) :=
  if w.inTick then
    if w.strict then
      match w.handleStrictDuringTick "mutate" (fun w0 => w0.pushCmd (.mutate id c f)) with
      | (w1, .error e) => (w1, .error e)
      | (w1, .ok _) => (w1, .ok none)
    else (w.pushCmd (.mutate id c f), .ok none)
  else
    match w.getW id c with
    | (w1, none) => (w1, .error "mutate: entity lacks component")
    | (w1, some r) =>
      let r2 := f r
      let ws := w1.mapFor c
      let w2 := ws.1.putStore c.key (aset ws.2 id r2)
      if rcdHasFn r2 then
        (w2, .error ("Component \"" ++ c.name ++ "\": function values are not allowed in component data"))
      else (w2.markChanged c.key id, .ok (some r2))

end World

/-! ## Query engine (`normalizeTerms`, `_cachedEntityList`, id traversal) -/

/-- A query term: a plain component descriptor, `Not(Comp)` or `Changed(Comp)`. -/
inductive Term where
  | pos (c : Comp)
  | negT (c : Comp)
  | chgT (c : Comp)

/-- Partitioned query terms plus the derived cache key (`normalizeTerms`). -/
structure QuerySpec where
  all : List Comp
  negs : List Comp
  chgs : List Comp
  cacheKey : String

/-- The fallback `description or c`: the symbol description is the component
name; the empty string is falsy. -/
def nameKey (c : Comp) : String :=
  if c.name = "" then "c" else c.name

/-- The cache key of a positive-term list:
map each positive component to `nameKey`, sort, join with a bar, with star
for the empty join. -/
def cacheKeyOf (all : List Comp) : String :=
  let j := String.intercalate "|" (sortStrs (all.map nameKey))
  if j = "" then "*" else j

/-- `normalizeTerms(terms)`. -/
def normalizeTerms (terms : List Term) : QuerySpec :=
  let all := terms.filterMap (fun t => match t with | .pos c => some c | _ => none)
  let negs := terms.filterMap (fun t => match t with | .negT c => some c | _ => none)
  let chgs := terms.filterMap (fun t => match t with | .chgT c => some c | _ => none)
  { all := all, negs := negs, chgs := chgs, cacheKey := cacheKeyOf all }

/-- `intersectSorted(a, b)`: two-pointer merge intersection. -/
def intersectSorted : List Nat → List Nat → List Nat
  | x :: a, y :: b =>
    if x = y then x :: intersectSorted a b
    else if x < y then intersectSorted a (y :: b)
    else intersectSorted (x :: a) b
  | _, _ => []
  termination_by a b => a.length + b.length

namespace World

/-- The candidate-computation loop of `_cachedEntityList`: intersect the
`entityIds()` of each positive store, short-circuiting on empty (so later
stores are not instantiated), threading the `_mapFor` store instantiation. -/
def candLoop (w : World) (acc : Option (List Nat)) : List Comp → World × Option (List Nat)
  | [] => (w, acc)
  | c :: rest =>
    let ws := w.mapFor c
    let arr := entityIds ws.2
    let res := match acc with
      | some r => intersectSorted r arr
      | none => arr
    if res.isEmpty then (ws.1, some res) else ws.1.candLoop (some res) rest

/-- `_cachedEntityList(spec, key)`: cache hit returns the cached list;
otherwise compute (zero positive terms ⇒ all alive ids sorted ascending)
and populate the cache. -/
def cachedEntityList (w : World) (spec : QuerySpec) : World × List Nat :=
  match alookup w.cache spec.cacheKey with
  | some l => (w, l)
  | none =>
    let wr := w.candLoop none spec.all
    let result :=
      if spec.all.isEmpty then sortNats w.alive
      else (wr.2).getD []
    ({ wr.1 with cache := aset wr.1.cache spec.cacheKey result }, result)

/-- `has(id, Comp)` with its `_mapFor` side effect (used by the dynamic
`Not` filter). -/
def hasW (w : World) (id : Nat) (c : Comp) : World × Bool :=
  let ws := w.mapFor c
  (ws.1, (alookup ws.2 id).isSome)

/-- `passesDynamicFilters(world, id, spec)`, threading store instantiation. -/
def passesDynW (w : World) (id : Nat) (spec : QuerySpec) : World × Bool :=
  let wn := spec.negs.foldl
    (fun (acc : World × Bool) c =>
      let hb := acc.1.hasW id c
      (hb.1, acc.2 && !hb.2)) (w, true)
  if !wn.2 then wn
  else (wn.1, spec.chgs.all (fun c => wn.1.changedHas c.key id))

/-- The entity-id sequence a query yields: the cached candidate list with
the dynamic (`Not`/`Changed`) filters applied in order. The component
tuples attached to each id are not modelled here; the claims are about
the id set. -/
def queryIds (w : World) (terms : List Term) : World × List Nat :=
  let spec := normalizeTerms terms
  let wb := w.cachedEntityList spec
  wb.2.foldl
    (fun (acc : World × List Nat) id =>
      let pk := acc.1.passesDynW id spec
      (pk.1, if pk.2 then acc.2 ++ [id] else acc.2))
    (wb.1, [])

/-! ## Deferred flush and tick -/

/-- `_applyOp(op)`: dispatch a queued operation; any error is caught and
logged, so only the (possibly partially mutated) world survives. -/
def applyOp (w : World) : Cmd → World
  | .destroy id => (w.destroy id).1
  | .add id c d => (w.add id c d).1
  | .remove id c => (w.remove id c).1
  | .set id c p => (w.set id c p).1
  | .mutate id c f => (w.mutate id c f).1

/-- The bounded deferred flush inside `tick`: snapshot the queue, clear it,
apply the first `min 1000 len` operations with `_inTick` temporarily
false, restore `_inTick`, and re-queue the excess after anything the
flush itself queued. -/
def flushCmds (w : World) : World :=
  if w.cmd.isEmpty then w
  else
    let cmds := w.cmd
    let limit := min 1000 cmds.length
    let wA := (cmds.take limit).foldl applyOp { w with cmd := [], inTick := false }
    { wA with inTick := w.inTick, cmd := wA.cmd ++ cmds.drop limit }

/-- `tick(dt)` with the installed scheduler passed explicitly (a `World`
field of type `World → World` would be negatively recursive). The
scheduler exceptions are caught and logged, so it is modelled as a total
function; `dt`/wall-clock timing and the `onTick` hook are not modelled. -/
def tick (w : World) (sched : Option (World → World)) : World × Except String Unit :=
  match sched with
  | none => (w, .error "tick: no scheduler installed. Call world.setScheduler(...) first.")
  | some f =>
    let w1 := { w with step := w.step + 1, inTick := true }
    let w2 := f w1
    let w3 := w2.flushCmds
    ({ w3 with changed := [], inTick := false }, .ok ())

end World

/-! ## State invariants (claim C9) -/

/-- Every entity id that holds a component record in any store is alive. -/
def RecordsAlive (w : World) : Prop :=
  ∀ p ∈ w.store, ∀ q ∈ (p.2 : StoreMap), (q.1 : Nat) ∈ w.alive

/-- Every store has duplicate-free entity-id keys (JS `Map` keys are unique). -/
def StoresNodup (w : World) : Prop :=
  ∀ p ∈ w.store, ((p.2 : StoreMap).map Prod.fst).Nodup

/-- The reachable-state invariant: records only under alive ids, stores
with unique entity-id keys, and a duplicate-free alive set (JS `Set`). -/
def Inv (w : World) : Prop := RecordsAlive w ∧ StoresNodup w ∧ w.alive.Nodup

/-! ## Iteration helpers and concrete fixtures used by the claim theorems -/

/-- `n` successive `create()` calls. -/
def createN (w : World) : Nat → World
  | 0 => w
  | n + 1 => ((createN w n).create).1

/-- A scheduler that calls `destroy` on each listed id in order (the shape
of the 1001-destroys scenario from the spec). -/
def schedDestroyList (ids : List Nat) : World → World :=
  fun w => ids.foldl (fun acc id => (acc.destroy id).1) w

/-- Two *distinct* component descriptors that share the name string "A". -/
def compA1 : Comp := { key := 1, name := "A", defaults := [], validate := none }

def compA2 : Comp := { key := 2, name := "A", defaults := [], validate := none }

/-- A plain data component with one numeric field. -/
def compP : Comp := { key := 10, name := "P", defaults := [("x", Value.num 0)], validate := none }

/-- A component whose validator rejects every record. -/
def compV : Comp := { key := 20, name := "V", defaults := [], validate := some (fun _ => false) }

/-- A component whose validator requires the field `x` to be a nonnegative
number. -/
def compX : Comp :=
  { key := 30, name := "X", defaults := [("x", Value.num 0)],
    validate := some (fun r =>
      match alookup r "x" with
      | some (Value.num n) => decide (0 ≤ n)
      | _ => false) }

/-- Mid-step (`_inTick = true`), non-strict world where entity 1 holds
`compP` with `x = 0` (as left by `create`; `add` mid-scheduler). -/
def wC2 : World :=
  { alive := [1], store := [(10, [(1, [("x", Value.num 0)])])], inTick := true }

/-- Mid-step strict world with a strict handler that throws its own error. -/
def wC3 : World :=
  { alive := [1], inTick := true, strict := true,
    strictHandler := some (fun _ => (false, HRes.raise "custom handler error")) }

/-- Mid-step strict world with no strict handler installed. -/
def wC4 : World :=
  { alive := [1], inTick := true, strict := true }

/-- Mid-step non-strict world with one alive entity and no components. -/
def wC5 : World :=
  { alive := [1], inTick := true }

/-- World where entity 1 holds `compA1` (and nothing else). -/
def wC6 : World :=
  { alive := [1], store := [(1, [(1, ([] : Rcd))])] }

/-- World where entity 1 holds `compX` with `x = 5`. -/
def wC7 : World :=
  { alive := [1], store := [(30, [(1, [("x", Value.num 5)])])] }

/-- World where entity 1 holds `compX` with `x = 5` plus an ad hoc extra
field. -/
def wC10 : World :=
  { alive := [1], store := [(30, [(1, [("x", Value.num 5), ("extra", Value.num 9)])])] }

/-- C1 trace, step 1: a fresh world after one `create` (entity 1). -/
def c1World1 : World := (initWorld.create).1

/-- C1 trace, step 2: a zero-term query, which caches the alive list. -/
def c1Query1 : World × List Nat := c1World1.queryIds []

/-- C1 trace, step 3: a second `create` (entity 2) after the query. -/
def c1World2 : World := (c1Query1.1.create).1

/-- C1 trace, step 4: the same zero-term query again. -/
def c1Query2 : World × List Nat := c1World2.queryIds []

end EcsJs

/-! # Theorems -/

namespace EcsJs

/-! ## Association-list lemmas -/

theorem alookup_aset_self {κ : Type} [DecidableEq κ] {α : Type} (m : List (κ × α)) (k : κ) (v : α) :
    alookup (aset m k v) k = some v := by
  induction m with
  | nil => simp [aset, alookup]
  | cons p rest ih =>
    by_cases h : p.1 = k
    · simp [aset, h, alookup]
    · simp [aset, h, alookup, ih]

theorem alookup_aset_ne {κ : Type} [DecidableEq κ] {α : Type} (m : List (κ × α)) {k k' : κ}
    (v : α) (h : k' ≠ k) : alookup (aset m k v) k' = alookup m k' := by
  have h' : ¬(k = k') := fun e => h e.symm
  induction m with
  | nil => simp [aset, alookup, h']
  | cons p rest ih =>
    by_cases hp : p.1 = k
    · subst hp
      simp [aset, alookup, h']
    · simp [aset, hp, alookup, ih]

theorem alookup_append_none {κ : Type} [DecidableEq κ] {α : Type} {m₁ : List (κ × α)}
    (m₂ : List (κ × α)) {k : κ} (h : alookup m₁ k = none) :
    alookup (m₁ ++ m₂) k = alookup m₂ k := by
  induction m₁ with
  | nil => rfl
  | cons p rest ih =>
    by_cases hp : p.1 = k
    · simp [alookup, hp] at h
    · simp only [alookup, hp, if_false] at h
      rw [List.cons_append]
      simp only [alookup, hp, if_false]
      exact ih h

theorem alookup_append_some {κ : Type} [DecidableEq κ] {α : Type} {m₁ : List (κ × α)}
    (m₂ : List (κ × α)) {k : κ} {v : α} (h : alookup m₁ k = some v) :
    alookup (m₁ ++ m₂) k = some v := by
  induction m₁ with
  | nil => simp [alookup] at h
  | cons p rest ih =>
    by_cases hp : p.1 = k
    · simp only [alookup, hp, if_true] at h
      simp [alookup, hp, h]
    · simp only [alookup, hp, if_false] at h
      rw [List.cons_append]
      simp only [alookup, hp, if_false]
      exact ih h

theorem alookup_eq_none_iff {κ : Type} [DecidableEq κ] {α : Type} (m : List (κ × α)) (k : κ) :
    alookup m k = none ↔ k ∉ m.map Prod.fst := by
  induction m with
  | nil => simp [alookup]
  | cons p rest ih =>
    by_cases hp : p.1 = k
    · simp [alookup, hp]
    · simp only [alookup, hp, if_false, List.map_cons, List.mem_cons]
      rw [ih]
      constructor
      · intro hn hk
        rcases hk with h1 | h1
        · exact hp h1.symm
        · exact hn h1
      · intro hn h1
        exact hn (Or.inr h1)

theorem alookup_mem {κ : Type} [DecidableEq κ] {α : Type} {m : List (κ × α)} {k : κ} {v : α}
    (h : alookup m k = some v) : (k, v) ∈ m := by
  induction m with
  | nil => simp [alookup] at h
  | cons p rest ih =>
    by_cases hp : p.1 = k
    · simp only [alookup, hp, if_true, Option.some.injEq] at h
      subst h; subst hp
      exact List.mem_cons_self _ _
    · simp only [alookup, hp, if_false] at h
      exact List.mem_cons_of_mem _ (ih h)

theorem aset_eq_append {κ : Type} [DecidableEq κ] {α : Type} {m : List (κ × α)} {k : κ}
    (v : α) (h : alookup m k = none) : aset m k v = m ++ [(k, v)] := by
  induction m with
  | nil => rfl
  | cons p rest ih =>
    by_cases hp : p.1 = k
    · simp [alookup, hp] at h
    · simp only [alookup, hp, if_false] at h
      simp [aset, hp, ih h]

theorem mem_aset {κ : Type} [DecidableEq κ] {α : Type} {m : List (κ × α)} {k : κ} {v : α}
    {q : κ × α} (h : q ∈ aset m k v) : q = (k, v) ∨ q ∈ m := by
  induction m with
  | nil => simpa [aset] using h
  | cons p rest ih =>
    by_cases hp : p.1 = k
    · simp only [aset, hp, if_true] at h
      rcases List.mem_cons.1 h with h | h
      · exact Or.inl h
      · exact Or.inr (List.mem_cons_of_mem _ h)
    · simp only [aset, hp, if_false] at h
      rcases List.mem_cons.1 h with h | h
      · exact Or.inr (h ▸ List.mem_cons_self _ _)
      · rcases ih h with h | h
        · exact Or.inl h
        · exact Or.inr (List.mem_cons_of_mem _ h)

theorem keys_aset_of_mem {κ : Type} [DecidableEq κ] {α : Type} {m : List (κ × α)} {k : κ}
    (v : α) (hk : k ∈ m.map Prod.fst) : (aset m k v).map Prod.fst = m.map Prod.fst := by
  induction m with
  | nil => simp at hk
  | cons p rest ih =>
    by_cases hp : p.1 = k
    · simp [aset, hp]
    · rw [List.map_cons] at hk
      have hr : k ∈ rest.map Prod.fst := by
        rcases List.mem_cons.1 hk with h1 | h1
        · exact absurd h1.symm hp
        · exact h1
      simp [aset, hp, ih hr]

theorem keys_aset_nodup {κ : Type} [DecidableEq κ] {α : Type} {m : List (κ × α)} (k : κ) (v : α)
    (h : (m.map Prod.fst).Nodup) : ((aset m k v).map Prod.fst).Nodup := by
  by_cases hk : k ∈ m.map Prod.fst
  · rw [keys_aset_of_mem v hk]; exact h
  · rw [aset_eq_append v ((alookup_eq_none_iff m k).2 hk)]
    rw [List.map_append]
    rw [List.nodup_append]
    refine ⟨h, List.nodup_singleton _, ?_⟩
    intro a ha hb
    simp only [List.map_cons, List.map_nil, List.mem_singleton] at hb
    exact hk (hb ▸ ha)

theorem adel_sublist {κ : Type} [DecidableEq κ] {α : Type} (m : List (κ × α)) (k : κ) :
    (adel m k).1.Sublist m := by
  induction m with
  | nil => exact List.Sublist.refl _
  | cons p rest ih =>
    by_cases hp : p.1 = k
    · rw [show (adel (p :: rest) k).1 = rest by simp [adel, hp]]
      exact List.sublist_cons_self p rest
    · simpa [adel, hp] using List.Sublist.cons₂ p ih

theorem mem_adel {κ : Type} [DecidableEq κ] {α : Type} {m : List (κ × α)} {k : κ} {q : κ × α}
    (h : q ∈ (adel m k).1) : q ∈ m :=
  (adel_sublist m k).mem h

theorem keys_adel_nodup {κ : Type} [DecidableEq κ] {α : Type} {m : List (κ × α)} (k : κ)
    (h : (m.map Prod.fst).Nodup) : (((adel m k).1).map Prod.fst).Nodup :=
  ((adel_sublist m k).map Prod.fst).nodup h

theorem alookup_adel_self {κ : Type} [DecidableEq κ] {α : Type} {m : List (κ × α)} (k : κ)
    (h : (m.map Prod.fst).Nodup) : alookup (adel m k).1 k = none := by
  induction m with
  | nil => rfl
  | cons p rest ih =>
    rw [List.map_cons] at h
    have h' := List.nodup_cons.1 h
    by_cases hp : p.1 = k
    · simp only [adel, hp, if_true]
      rw [alookup_eq_none_iff]
      intro hk
      exact h'.1 (hp ▸ hk)
    · simp only [adel, hp, if_false]
      simp only [alookup, hp, if_false]
      exact ih h'.2

theorem mem_key_ne_of_alookup_none {κ : Type} [DecidableEq κ] {α : Type} {m : List (κ × α)}
    {q : κ × α} (hq : q ∈ m) {k : κ} (hk : alookup m k = none) : q.1 ≠ k := by
  intro he
  exact ((alookup_eq_none_iff m k).1 hk) (he ▸ List.mem_map_of_mem Prod.fst hq)

/-! ## Record-merge and clone lemmas -/

theorem alookup_rassign_none {k : String} :
    ∀ (src target : Rcd), alookup target k = none → alookup src k = none →
      alookup (rassign target src) k = none := by
  intro src
  induction src with
  | nil => intro t ht _; exact ht
  | cons p rest ih =>
    intro t ht hs
    by_cases hp : p.1 = k
    · simp [alookup, hp] at hs
    · simp only [alookup, hp, if_false] at hs
      show alookup (rassign (aset t p.1 p.2) rest) k = none
      exact ih _ (by rw [alookup_aset_ne _ _ (fun e => hp e.symm)]; exact ht) hs

theorem rassign_eq_append :
    ∀ (src target : Rcd), (∀ k ∈ src.map Prod.fst, alookup target k = none) →
      (src.map Prod.fst).Nodup → rassign target src = target ++ src := by
  intro src
  induction src with
  | nil => intro t _ _; simp [rassign]
  | cons p rest ih =>
    intro t hdisj hnd
    rw [List.map_cons] at hnd
    have hnd' := List.nodup_cons.1 hnd
    have ht : alookup t p.1 = none := hdisj p.1 (by simp)
    show rassign (aset t p.1 p.2) rest = t ++ p :: rest
    rw [aset_eq_append p.2 ht]
    have hdisj' : ∀ k ∈ rest.map Prod.fst, alookup (t ++ [(p.1, p.2)]) k = none := by
      intro k hk
      have hkp : ¬(p.1 = k) := fun e => hnd'.1 (e ▸ hk)
      rw [alookup_append_none _ (hdisj k (by simp [hk]))]
      simp [alookup, hkp]
    rw [ih _ hdisj' hnd'.2]
    simp

theorem rassign_nil_eq (r : Rcd) (h : (r.map Prod.fst).Nodup) : rassign [] r = r := by
  rw [rassign_eq_append r [] (fun k _ => rfl) h]
  simp

theorem mergeRcd_eq_rassign (r patch : Rcd) (h : (r.map Prod.fst).Nodup) :
    mergeRcd r patch = rassign r patch := by
  rw [mergeRcd, rassign_nil_eq r h]

theorem alookup_mergeRcd_none {a b : Rcd} {k : String} (ha : alookup a k = none)
    (hb : alookup b k = none) : alookup (mergeRcd a b) k = none := by
  rw [mergeRcd]
  exact alookup_rassign_none b (rassign [] a) (alookup_rassign_none a [] rfl ha) hb

mutual
theorem deepClone_id : (v : Value) → deepClone v = v
  | .num _ => rfl
  | .str _ => rfl
  | .bool _ => rfl
  | .null => rfl
  | .fn _ => rfl
  | .arr xs => by rw [deepClone, deepCloneList_id xs]
  | .obj fs => by rw [deepClone, deepCloneFields_id fs]

theorem deepCloneList_id : (xs : ValueList) → deepCloneList xs = xs
  | .nil => rfl
  | .cons v rest => by rw [deepCloneList, deepClone_id v, deepCloneList_id rest]

theorem deepCloneFields_id : (fs : FieldList) → deepCloneFields fs = fs
  | .nil => rfl
  | .cons k v rest => by rw [deepCloneFields, deepClone_id v, deepCloneFields_id rest]
end

theorem deepCloneRcd_id (r : Rcd) : deepCloneRcd r = r := by
  unfold deepCloneRcd
  induction r with
  | nil => rfl
  | cons p rest ih => simp [deepClone_id, ih]

/-! ## World-state field lemmas -/

namespace World

theorem markChanged_eq (w : World) (ck id : Nat) :
    ∃ ch, w.markChanged ck id = { w with changed := ch } := by
  unfold World.markChanged
  cases alookup w.changed ck with
  | none => exact ⟨_, rfl⟩
  | some s => exact ⟨_, rfl⟩

theorem markChanged_store (w : World) (ck id : Nat) :
    (w.markChanged ck id).store = w.store := by
  obtain ⟨ch, h⟩ := w.markChanged_eq ck id
  rw [h]

theorem markChanged_alive (w : World) (ck id : Nat) :
    (w.markChanged ck id).alive = w.alive := by
  obtain ⟨ch, h⟩ := w.markChanged_eq ck id
  rw [h]

theorem markChanged_cmd (w : World) (ck id : Nat) :
    (w.markChanged ck id).cmd = w.cmd := by
  obtain ⟨ch, h⟩ := w.markChanged_eq ck id
  rw [h]

theorem markChanged_inTick (w : World) (ck id : Nat) :
    (w.markChanged ck id).inTick = w.inTick := by
  obtain ⟨ch, h⟩ := w.markChanged_eq ck id
  rw [h]

theorem read_markChanged (w : World) (ck id : Nat) (id' : Nat) (c : Comp) :
    (w.markChanged ck id).read id' c = w.read id' c := by
  unfold World.read
  rw [markChanged_store]

theorem changedHas_markChanged_self (w : World) (ck id : Nat) :
    (w.markChanged ck id).changedHas ck id = true := by
  unfold World.markChanged World.changedHas
  cases h : alookup w.changed ck with
  | none =>
    simp only
    rw [alookup_append_none _ h]
    simp [alookup]
  | some s =>
    simp only
    rw [alookup_aset_self]
    by_cases hid : id ∈ s
    · simp [hid]
    · simp [hid]

theorem getW_of_read {w : World} {id : Nat} {c : Comp} {r : Rcd} (h : w.read id c = some r) :
    w.getW id c = (w, some r) := by
  unfold World.read at h
  unfold World.getW World.mapFor
  cases hs : alookup w.store c.key with
  | none => rw [hs] at h; simp at h
  | some s =>
    rw [hs] at h
    simp only [Option.some_bind] at h
    simp [hs, h]

end World

/-! ## Claim C1 (code bug: `create` does not invalidate the query cache) -/

/-- C1: the claim — the entity-id set returned by a positive-term-only
query (including the zero-term query) always equals the exact set of alive
entities holding the terms at call time, the cache being invalidated on
entity creation as well — FAILS on the code: `World.create` never calls
`_invalidateCaches`, although the class documentation in `core.js` lists
`create` among the structural mutations that invalidate the cache.
Concretely: create entity 1, run the zero-term query (which caches `[1]`
under the key `*`), create entity 2, and run the zero-term query again: it
replays the stale cached `[1]` although the alive set is `[1, 2]`. -/
theorem c1_zero_term_query_stale_after_create :
    c1Query1.2 = [1] ∧ c1World2.alive = [1, 2] ∧ c1Query2.2 = [1] :=
  ⟨rfl, rfl, rfl⟩

/-! ## Claim C2 (corrected: mid-step `set`/`mutate` are deferred) -/

/-- C2 counterexample: in a non-strict world mid-step (`_inTick` set), a
`set` of `x := 1` on entity 1 does *not* take effect immediately: it
returns the deferred sentinel `null`, a subsequent `get` still observes
the old field value `x = 0`, and the patch sits in the deferred queue. -/
theorem c2_set_midstep_is_deferred_cex :
    (wC2.set 1 compP [("x", Value.num 1)]).2 = .ok none
    ∧ World.read (wC2.set 1 compP [("x", Value.num 1)]).1 1 compP = some [("x", Value.num 0)]
    ∧ (wC2.set 1 compP [("x", Value.num 1)]).1.cmd = [Cmd.set 1 compP [("x", Value.num 1)]] :=
  ⟨rfl, rfl, rfl⟩

/-- C2 amended: a `set` or `mutate` issued mid-step in a non-strict world
is deferred, not immediate — it returns `null`, leaves the stored record
untouched, and appends the operation to the deferred queue; the write
becomes visible only when the queued operation is replayed by the flush
(`_applyOp` with `_inTick` temporarily false), after which `get` observes
the patched value. -/
theorem c2_set_mutate_midstep_deferred_until_flush (w : World) (id : Nat) (c : Comp)
    (patch : Rcd) (f : Rcd → Rcd) (hT : w.inTick = true) (hS : w.strict = false) :
    (w.set id c patch = ({ w with cmd := w.cmd ++ [Cmd.set id c patch] }, .ok none)
      ∧ w.mutate id c f = ({ w with cmd := w.cmd ++ [Cmd.mutate id c f] }, .ok none))
    ∧ ∀ (w' : World) (r : Rcd), w'.inTick = false → w'.read id c = some r →
        rcdHasFn (mergeRcd r patch) = false → World.validateFails c (mergeRcd r patch) = false →
        (w'.applyOp (Cmd.set id c patch)).read id c = some (rassign r patch) := by
  constructor
  · constructor
    · unfold World.set
      simp [World.pushCmd, hT, hS]
    · unfold World.mutate
      simp [World.pushCmd, hT, hS]
  · intro w' r hT' hr hfn hval
    have happ : w'.applyOp (Cmd.set id c patch) = (w'.set id c patch).1 := rfl
    rw [happ]
    unfold World.set
    rw [hT']
    simp only [Bool.false_eq_true, if_false]
    rw [World.getW_of_read hr]
    simp only [hfn, hval, Bool.false_eq_true, if_false]
    unfold World.read at hr ⊢
    rw [World.markChanged_store]
    cases hs : alookup w'.store c.key with
    | none => rw [hs] at hr; simp at hr
    | some st =>
      rw [hs] at hr
      simp only [Option.some_bind] at hr
      unfold World.putStore World.mapFor
      rw [hs]
      simp only
      rw [alookup_aset_self]
      simp only [Option.some_bind]
      rw [alookup_aset_self]

/-- C2 witness: the amended theorem applied to the concrete mid-step world
`wC2` and to a flush-time world holding `x = 0`. -/
theorem c2_witness :
    (wC2.set 1 compP [("x", Value.num 1)]
        = ({ wC2 with cmd := [Cmd.set 1 compP [("x", Value.num 1)]] }, .ok none))
    ∧ (({ wC2 with inTick := false } : World).applyOp
          (Cmd.set 1 compP [("x", Value.num 1)])).read 1 compP
        = some (rassign [("x", Value.num 0)] [("x", Value.num 1)]) := by
  have h := c2_set_mutate_midstep_deferred_until_flush wC2 1 compP
    [("x", Value.num 1)] (fun r => r) rfl rfl
  exact ⟨h.1.1, h.2 { wC2 with inTick := false } [("x", Value.num 0)] rfl rfl rfl rfl⟩

/-! ## Claim C3 (code bug: a throwing strict handler does not propagate
its own error) -/

/-- C3: the claim — in a strict world whose policy hook throws its own
error, the hook-raised error (not the originally constructed error) is
what propagates to the caller, the mutation staying unapplied — FAILS on
the code: `_handleStrictDuringTick` catches the handler error, merely logs
it, and rethrows the *original* "structural mutation during tick (strict)"
error, although the `onStrictError` JSDoc promises "Throw to propagate
custom errors". In `wC3` the handler throws "custom handler error", yet
`destroy` surfaces the original error; the mutation is indeed not applied
(the world is returned unchanged). -/
theorem c3_handler_throw_propagates_original_error :
    (wC3.destroy 1).2 = .error "destroy: structural mutation during tick (strict)"
    ∧ (wC3.destroy 1).1 = wC3 :=
  ⟨rfl, rfl⟩

/-! ## Claim C4 (corrected: `destroy` does throw in strict mode mid-step) -/

/-- C4 counterexample: in a strict world mid-step with no handler,
`destroy` of an alive id throws, contradicting "destroy(id) never throws,
for every id and every world state (including a strict-mode world
mid-step)". -/
theorem c4_destroy_throws_strict_midstep_cex :
    (wC4.destroy 1).2 = .error "destroy: structural mutation during tick (strict)" :=
  rfl

/-- C4 amended: `destroy` never throws for a dead id — in every world
state, strict mid-step included, it returns the falsy sentinel `false` and
changes nothing — and in a non-strict world, or outside a tick, it never
throws for any id: it returns `false`, defers returning `null`, or applies
returning `true`. Only a strict world mid-step with an alive id can make
it throw. -/
theorem c4_destroy_no_throw_nonstrict_or_idle (w : World) (id : Nat) :
    (id ∉ w.alive → w.destroy id = (w, .ok (some false)))
    ∧ (w.strict = false ∨ w.inTick = false → ∃ r, (w.destroy id).2 = .ok r) := by
  constructor
  · intro h
    unfold World.destroy
    simp [h]
  · intro hcase
    unfold World.destroy
    by_cases ha : id ∈ w.alive
    · rcases hcase with hS | hT
      · by_cases hT : w.inTick = true
        · simp [ha, hT, hS]
        · simp [ha, hT]
      · simp [ha, hT]
    · simp [ha]

/-- C4 witness: the amended theorem at a dead id in a fresh world and at
an alive id in the non-strict mid-step world `wC2`. -/
theorem c4_witness :
    (initWorld.destroy 7 = (initWorld, .ok (some false))) ∧ ∃ r, (wC2.destroy 1).2 = .ok r := by
  refine ⟨(c4_destroy_no_throw_nonstrict_or_idle initWorld 7).1 (by decide), ?_⟩
  exact (c4_destroy_no_throw_nonstrict_or_idle wC2 1).2 (Or.inl rfl)

/-! ## Claim C5 (corrected: mid-step non-strict `add` defers before
validating, and the flush swallows the failure) -/

/-- C5 counterexample: in a non-strict world mid-step, `add` with an
always-rejecting validator does *not* throw — it defers and returns
`null`; the subsequent flush replays the operation, whose validation error
is caught and logged, leaving the component absent and the caller without
any exception. -/
theorem c5_add_invalid_midstep_no_throw_cex :
    (wC5.add 1 compV []).2 = .ok none
    ∧ World.read ((wC5.add 1 compV []).1.flushCmds) 1 compV = none :=
  ⟨rfl, rfl⟩

/-- C5 amended: `add` surfaces a no-function/validation failure
synchronously by throwing only when the record is built immediately
(outside a tick); mid-step in a non-strict world the operation is enqueued
*before* any validation and the call returns `null`, and replaying the
enqueued add during the flush swallows the validation failure, leaving the
world as it was. -/
theorem c5_add_validation_throw_only_immediate (w : World) (id : Nat) (c : Comp) (data : Rcd)
    (ha : id ∈ w.alive) :
    (w.inTick = false →
        (rcdHasFn (mergeRcd (deepCloneRcd c.defaults) (deepCloneRcd data)) = true
            ∨ World.validateFails c (mergeRcd (deepCloneRcd c.defaults) (deepCloneRcd data)) = true) →
        ∃ e, w.add id c data = (w, .error e))
    ∧ (w.inTick = true → w.strict = false →
        w.add id c data = ({ w with cmd := w.cmd ++ [Cmd.add id c data] }, .ok none))
    ∧ (w.inTick = false →
        World.validateFails c (mergeRcd (deepCloneRcd c.defaults) (deepCloneRcd data)) = true →
        w.applyOp (Cmd.add id c data) = w) := by
  refine ⟨?_, ?_, ?_⟩
  · intro hT hbad
    unfold World.add
    rw [hT]
    simp only [ha, if_true, Bool.false_eq_true, if_false]
    by_cases hfn : rcdHasFn (mergeRcd (deepCloneRcd c.defaults) (deepCloneRcd data)) = true
    · rw [hfn]
      exact ⟨_, rfl⟩
    · rw [Bool.not_eq_true] at hfn
      rcases hbad with hb | hval
      · rw [hfn] at hb; simp at hb
      · rw [hfn, hval]
        exact ⟨_, rfl⟩
  · intro hT hS
    unfold World.add
    simp [ha, hT, hS, World.pushCmd]
  · intro hT hval
    have happ : w.applyOp (Cmd.add id c data) = (w.add id c data).1 := rfl
    rw [happ]
    unfold World.add
    rw [hT]
    simp only [ha, if_true, Bool.false_eq_true, if_false]
    by_cases hfn : rcdHasFn (mergeRcd (deepCloneRcd c.defaults) (deepCloneRcd data)) = true
    · rw [hfn]
      simp
    · rw [Bool.not_eq_true] at hfn
      rw [hfn, hval]
      simp

/-- C5 witness: the amended theorem at the mid-step world `wC5` and at the
same world outside a tick, for the always-rejecting component `compV`. -/
theorem c5_witness :
    (wC5.add 1 compV [] = ({ wC5 with cmd := [Cmd.add 1 compV []] }, .ok none))
    ∧ (∃ e, ({ wC5 with inTick := false } : World).add 1 compV []
        = ({ wC5 with inTick := false }, .error e)) := by
  refine ⟨?_, ?_⟩
  · exact ((c5_add_validation_throw_only_immediate wC5 1 compV [] (by decide)).2.1 rfl rfl)
  · exact ((c5_add_validation_throw_only_immediate { wC5 with inTick := false } 1 compV []
      (by decide)).1 rfl (Or.inr rfl))

/-! ## Claim C6 (corrected: the cache key is the sorted name multiset, so
distinct descriptors sharing a name collide) -/

/-- C6 counterexample: `compA1` and `compA2` are distinct descriptors
(different `key` symbols) sharing the name string "A"; they produce the
*same* cache key — `normalizeTerms` keys on `key.description`, i.e. the
name — and they *do* share a cached candidate list: after querying
`compA1` (entity 1 holds it), querying `compA2` replays the cached `[1]`
even though entity 1 does not hold `compA2`. -/
theorem c6_same_name_distinct_descriptors_share_key_cex :
    cacheKeyOf [compA1] = cacheKeyOf [compA2]
    ∧ compA1.key ≠ compA2.key
    ∧ (wC6.queryIds [Term.pos compA1]).2 = [1]
    ∧ ((wC6.queryIds [Term.pos compA1]).1.queryIds [Term.pos compA2]).2 = [1]
    ∧ wC6.read 1 compA2 = none := by
  refine ⟨rfl, by decide, rfl, rfl, rfl⟩

/-! ## JS string order: transitivity, totality, antisymmetry (for the
C6 cache-key order-independence theorem) -/

theorem strLtData_asymm : ∀ as bs, strLtData as bs = true → strLtData bs as = false := by
  intro as
  induction as with
  | nil =>
    intro bs h
    cases bs with
    | nil => simp [strLtData] at h
    | cons b bs => simp [strLtData]
  | cons a as ih =>
    intro bs h
    cases bs with
    | nil => simp [strLtData] at h
    | cons b bs =>
      rcases lt_trichotomy a.toNat b.toNat with h1 | h1 | h1
      · simp [strLtData, h1, not_lt_of_gt h1]
      · simp only [strLtData, h1, lt_irrefl, if_false] at h ⊢
        exact ih bs h
      · simp [strLtData, h1, not_lt_of_gt h1] at h

theorem strLtData_trans :
    ∀ as bs cs, strLtData as bs = true → strLtData bs cs = true → strLtData as cs = true := by
  intro as
  induction as with
  | nil =>
    intro bs cs h1 h2
    cases bs with
    | nil => simp [strLtData] at h1
    | cons b bs =>
      cases cs with
      | nil => simp [strLtData] at h2
      | cons c cs => simp [strLtData]
  | cons a as ih =>
    intro bs cs h1 h2
    cases bs with
    | nil => simp [strLtData] at h1
    | cons b bs =>
      cases cs with
      | nil => simp [strLtData] at h2
      | cons c cs =>
        rcases lt_trichotomy a.toNat b.toNat with hab | hab | hab
        · rcases lt_trichotomy b.toNat c.toNat with hbc | hbc | hbc
          · simp [strLtData, lt_trans hab hbc]
          · simp [strLtData, hbc ▸ hab]
          · simp [strLtData, hbc, not_lt_of_gt hbc] at h2
        · rcases lt_trichotomy b.toNat c.toNat with hbc | hbc | hbc
          · simp [strLtData, hab ▸ hbc]
          · simp only [strLtData, hab, hbc, lt_irrefl, if_false] at h1 h2 ⊢
            exact ih bs cs h1 h2
          · simp [strLtData, hbc, not_lt_of_gt hbc] at h2
        · simp [strLtData, hab, not_lt_of_gt hab] at h1

theorem strLtData_eq_of_not :
    ∀ as bs, strLtData as bs = false → strLtData bs as = false → as = bs := by
  intro as
  induction as with
  | nil =>
    intro bs h1 h2
    cases bs with
    | nil => rfl
    | cons b bs => simp [strLtData] at h1
  | cons a as ih =>
    intro bs h1 h2
    cases bs with
    | nil => simp [strLtData] at h2
    | cons b bs =>
      rcases lt_trichotomy a.toNat b.toNat with hab | hab | hab
      · simp [strLtData, hab] at h1
      · have ha : a = b := Char.ext (UInt32.ext hab)
        subst ha
        simp only [strLtData, lt_irrefl, if_false] at h1 h2
        rw [ih bs h1 h2]
      · simp [strLtData, hab, not_lt_of_gt hab] at h2

instance : IsTrans String (fun a b => jsStrLe a b = true) where
  trans := by
    intro a b c hab hbc
    simp only [jsStrLe, Bool.not_eq_true'] at hab hbc ⊢
    cases hca : strLtData c.data a.data with
    | false => rfl
    | true =>
      exfalso
      cases hx : strLtData a.data b.data with
      | true =>
        have h2 := strLtData_trans _ _ _ hca hx
        rw [hbc] at h2
        exact Bool.noConfusion h2
      | false =>
        have hdata : a.data = b.data := strLtData_eq_of_not _ _ hx hab
        rw [← hdata, hca] at hbc
        exact Bool.noConfusion hbc

instance : IsTotal String (fun a b => jsStrLe a b = true) where
  total := by
    intro a b
    simp only [jsStrLe, Bool.not_eq_true']
    cases h : strLtData b.data a.data with
    | false => exact Or.inl rfl
    | true => exact Or.inr (strLtData_asymm _ _ h)

instance : IsAntisymm String (fun a b => jsStrLe a b = true) where
  antisymm := by
    intro a b hab hba
    simp only [jsStrLe, Bool.not_eq_true'] at hab hba
    have hdata : a.data = b.data := strLtData_eq_of_not _ _ hba hab
    cases a with
    | mk ad =>
      cases b with
      | mk bd =>
        simp only at hdata
        rw [hdata]

/-- C6 amended: the cache key is a deterministic function of the *sorted
multiset of positive-term names* (symbol descriptions): any two term lists
whose positive-name multisets agree — in particular, reorderings of the
same descriptor set — produce the same cache key. (The counterexample
shows the flip side: distinct descriptors sharing a name also agree.) -/
theorem c6_cache_key_order_independent (all1 all2 : List Comp)
    (h : (all1.map nameKey).Perm (all2.map nameKey)) :
    cacheKeyOf all1 = cacheKeyOf all2 := by
  unfold cacheKeyOf
  have hsort : sortStrs (all1.map nameKey) = sortStrs (all2.map nameKey) := by
    unfold sortStrs
    refine List.eq_of_perm_of_sorted
      ((List.perm_insertionSort _ _).trans (h.trans (List.perm_insertionSort _ _).symm))
      (List.sorted_insertionSort _ _) (List.sorted_insertionSort _ _)
  rw [hsort]

/-- C6 witness: the amended theorem applied to the two orderings of the
descriptor pair (`compA1`, `compP`). -/
theorem c6_witness :
    cacheKeyOf [compA1, compP] = cacheKeyOf [compP, compA1] :=
  c6_cache_key_order_independent [compA1, compP] [compP, compA1] (by decide)

/-! ## Claim C7 (confirmed: `set` validates the merged record before
committing) -/

/-- C7: an immediately applied `set` computes the would-be merged record
`Object.assign(\u007b\u007d, rec, patch)` and validates it *before* committing: if
the merged record contains a function value or fails the validator, `set`
throws and the world — stored record and change marks included — is left
entirely unchanged; only on success is the patch applied in place (the
stored record becomes `Object.assign(rec, patch)`, which for a
duplicate-free record equals the validated merged record) and the
component marked changed. -/
theorem c7_set_validates_before_commit (w : World) (id : Nat) (c : Comp) (patch : Rcd)
    (r : Rcd) (hT : w.inTick = false) (hr : w.read id c = some r) :
    ((rcdHasFn (mergeRcd r patch) = true ∨ World.validateFails c (mergeRcd r patch) = true) →
        (w.set id c patch).1 = w ∧ ∃ e, (w.set id c patch).2 = .error e)
    ∧ (rcdHasFn (mergeRcd r patch) = false → World.validateFails c (mergeRcd r patch) = false →
        (w.set id c patch).2 = .ok (some (rassign r patch))
        ∧ (w.set id c patch).1.read id c = some (rassign r patch)
        ∧ (w.set id c patch).1.changedHas c.key id = true
        ∧ ((r.map Prod.fst).Nodup → rassign r patch = mergeRcd r patch)) := by
  have hset : w.set id c patch =
      (if rcdHasFn (mergeRcd r patch) = true then
        (w, .error ("Component \"" ++ c.name ++ "\": function values are not allowed in component data"))
      else if World.validateFails c (mergeRcd r patch) = true then
        (w, .error ("Validation failed for component " ++ c.name))
      else
        (((w.mapFor c).1.putStore c.key (aset (w.mapFor c).2 id (rassign r patch))).markChanged
            c.key id, .ok (some (rassign r patch)))) := by
    unfold World.set
    rw [hT]
    simp only [Bool.false_eq_true, if_false]
    split
    next w1 heq =>
      rw [World.getW_of_read hr] at heq
      injection heq with h1 h2
      exact absurd h2 (by simp)
    next w1 r2 heq =>
      rw [World.getW_of_read hr] at heq
      injection heq with h1 h2
      injection h2 with h2
      subst h1
      subst h2
      rfl
  rw [hset]
  constructor
  · intro hbad
    by_cases hfn : rcdHasFn (mergeRcd r patch) = true
    · rw [if_pos hfn]
      exact ⟨rfl, _, rfl⟩
    · have hval : World.validateFails c (mergeRcd r patch) = true := by
        rcases hbad with hb | hb
        · exact absurd hb hfn
        · exact hb
      rw [if_neg hfn, if_pos hval]
      exact ⟨rfl, _, rfl⟩
  · intro hfn hval
    have hfn' : ¬(rcdHasFn (mergeRcd r patch) = true) := by simp [hfn]
    have hval' : ¬(World.validateFails c (mergeRcd r patch) = true) := by simp [hval]
    rw [if_neg hfn', if_neg hval']
    refine ⟨rfl, ?_, ?_, fun hnd => (mergeRcd_eq_rassign r patch hnd).symm⟩
    · unfold World.read at hr ⊢
      rw [World.markChanged_store]
      cases hs : alookup w.store c.key with
      | none => rw [hs] at hr; simp at hr
      | some st =>
        rw [hs] at hr
        simp only [Option.some_bind] at hr
        unfold World.putStore World.mapFor
        rw [hs]
        simp only
        rw [alookup_aset_self]
        simp only [Option.some_bind]
        rw [alookup_aset_self]
    · exact World.changedHas_markChanged_self _ c.key id

/-- C7 witness: the theorem applied to `wC7` (entity 1 holds `compX` with
`x = 5`): the rejected patch `x := -1` leaves the world unchanged and
errors; the accepted patch `x := 7` commits. -/
theorem c7_witness :
    ((wC7.set 1 compX [("x", Value.num (-1))]).1 = wC7
      ∧ ∃ e, (wC7.set 1 compX [("x", Value.num (-1))]).2 = .error e)
    ∧ (wC7.set 1 compX [("x", Value.num 7)]).2
        = .ok (some (rassign [("x", Value.num 5)] [("x", Value.num 7)])) := by
  constructor
  · exact (c7_set_validates_before_commit wC7 1 compX [("x", Value.num (-1))]
      [("x", Value.num 5)] rfl rfl).1 (Or.inr rfl)
  · exact ((c7_set_validates_before_commit wC7 1 compX [("x", Value.num 7)]
      [("x", Value.num 5)] rfl rfl).2 rfl rfl).1


/-! ## Claim C10 (confirmed: re-`add` replaces the record wholesale) -/

/-- C10: `add` on an alive entity that already holds the component,
outside a step, does not throw and does not merge with the existing
record: the store entry is replaced by a fresh deep clone of the defaults
merged with the supplied data (so any field present only in the previous
record is gone: every key of the new record comes from the defaults or the
data), the new record is returned, and the component is marked changed. -/
theorem c10_add_replaces_record (w : World) (id : Nat) (c : Comp) (data : Rcd) (old : Rcd)
    (hT : w.inTick = false) (ha : id ∈ w.alive) (hold : w.read id c = some old)
    (hfn : rcdHasFn (mergeRcd c.defaults data) = false)
    (hval : World.validateFails c (mergeRcd c.defaults data) = false) :
    (w.add id c data).2 = .ok (some (mergeRcd c.defaults data))
    ∧ (w.add id c data).1.read id c = some (mergeRcd c.defaults data)
    ∧ (w.add id c data).1.changedHas c.key id = true
    ∧ ∀ k, alookup c.defaults k = none → alookup data k = none →
        alookup (mergeRcd c.defaults data) k = none := by
  have hdc : mergeRcd (deepCloneRcd c.defaults) (deepCloneRcd data) = mergeRcd c.defaults data := by
    rw [deepCloneRcd_id, deepCloneRcd_id]
  have hfn' : ¬(rcdHasFn (mergeRcd c.defaults data) = true) := by simp [hfn]
  have hval' : ¬(World.validateFails c (mergeRcd c.defaults data) = true) := by simp [hval]
  have hadd : w.add id c data =
      ((((w.mapFor c).1.putStore c.key
          (aset (w.mapFor c).2 id (mergeRcd c.defaults data))).markChanged
          c.key id).invalidateCaches, .ok (some (mergeRcd c.defaults data))) := by
    unfold World.add
    rw [hT]
    simp only [ha, if_true, Bool.false_eq_true, if_false]
    rw [hdc]
    rw [if_neg hfn', if_neg hval']
  rw [hadd]
  have hs : ∃ st, alookup w.store c.key = some st ∧ alookup st id = some old := by
    unfold World.read at hold
    cases hs : alookup w.store c.key with
    | none => rw [hs] at hold; simp at hold
    | some st =>
      rw [hs] at hold
      simp only [Option.some_bind] at hold
      exact ⟨st, rfl, hold⟩
  obtain ⟨st, hst, _⟩ := hs
  refine ⟨rfl, ?_, ?_, ?_⟩
  · unfold World.read World.invalidateCaches
    simp only
    rw [World.markChanged_store]
    unfold World.putStore World.mapFor
    rw [hst]
    simp only
    rw [alookup_aset_self]
    simp only [Option.some_bind]
    rw [alookup_aset_self]
  · exact World.changedHas_markChanged_self
      ((w.mapFor c).1.putStore c.key (aset (w.mapFor c).2 id (mergeRcd c.defaults data)))
      c.key id
  · intro k hd hdata
    exact alookup_mergeRcd_none hd hdata

/-- C10 witness: the theorem applied to `wC10`, whose existing record has
the ad hoc field `extra`; after re-adding `compX` with data `y = 2` the
stored record has exactly the default `x` and the supplied `y`, and no
`extra`. -/
theorem c10_witness :
    (wC10.add 1 compX [("y", Value.num 2)]).2
        = .ok (some (mergeRcd compX.defaults [("y", Value.num 2)]))
    ∧ (wC10.add 1 compX [("y", Value.num 2)]).1.read 1 compX
        = some (mergeRcd compX.defaults [("y", Value.num 2)])
    ∧ alookup (mergeRcd compX.defaults [("y", Value.num 2)]) "extra" = none := by
  have h := c10_add_replaces_record wC10 1 compX [("y", Value.num 2)]
    [("x", Value.num 5), ("extra", Value.num 9)] rfl (by decide) rfl rfl rfl
  exact ⟨h.1, h.2.1, h.2.2.2 "extra" rfl rfl⟩

/-! ## Claim C8: the bounded FIFO flush -/

theorem createN_init : ∀ n : Nat,
    createN initWorld n = { alive := List.range' 1 n, nextId := n + 1 } := by
  intro n
  induction n with
  | zero => rfl
  | succ n ih =>
    show ((createN initWorld n).create).1 = _
    rw [ih]
    unfold World.create
    have hmem : (n + 1) ∉ List.range' 1 n := by
      rw [List.mem_range'_1]
      omega
    simp only [List.getLast?_nil]
    simp only [hmem, if_false]
    have hconc : List.range' 1 (n + 1) = List.range' 1 n ++ [n + 1] := by
      have h := @List.range'_concat 1 1 n
      simpa [Nat.add_comm] using h
    rw [hconc]

theorem destroy_defer (w : World) (id : Nat) (hT : w.inTick = true) (hS : w.strict = false)
    (ha : id ∈ w.alive) :
    (w.destroy id).1 = { w with cmd := w.cmd ++ [Cmd.destroy id] } := by
  unfold World.destroy
  simp [ha, hT, hS, World.pushCmd]

theorem schedDestroyList_defer : ∀ (ids : List Nat) (w : World), w.inTick = true →
    w.strict = false → (∀ i ∈ ids, i ∈ w.alive) →
    schedDestroyList ids w = { w with cmd := w.cmd ++ ids.map Cmd.destroy } := by
  intro ids
  induction ids with
  | nil =>
    intro w _ _ _
    show w = _
    rw [List.map_nil, List.append_nil]
  | cons i rest ih =>
    intro w hT hS hall
    show schedDestroyList rest ((w.destroy i).1) = _
    rw [destroy_defer w i hT hS (hall i (List.mem_cons_self i rest))]
    rw [ih { w with cmd := w.cmd ++ [Cmd.destroy i] } hT hS
      (fun j hj => hall j (List.mem_cons_of_mem _ hj))]
    simp [List.append_assoc]

theorem destroy_now_empty_store (w : World) (id : Nat) (hT : w.inTick = false)
    (ha : id ∈ w.alive) (hS : w.store = []) :
    (w.destroy id).1 = { w with
      store := [], alive := w.alive.erase id, free := w.free ++ [id], cache := [] } := by
  unfold World.destroy
  simp only [ha, if_true, hT, Bool.false_eq_true, if_false]
  unfold World.destroyNow
  rw [hS]
  simp [hT]

theorem applyOp_destroy_chain : ∀ (k a m : Nat) (w : World),
    w.alive = List.range' a (k + m) → w.store = [] → w.cmd = [] → w.inTick = false →
    (((List.range' a k).map Cmd.destroy).foldl World.applyOp w).alive = List.range' (a + k) m
    ∧ (((List.range' a k).map Cmd.destroy).foldl World.applyOp w).store = []
    ∧ (((List.range' a k).map Cmd.destroy).foldl World.applyOp w).cmd = []
    ∧ (((List.range' a k).map Cmd.destroy).foldl World.applyOp w).inTick = false := by
  intro k
  induction k with
  | zero =>
    intro a m w hA hS hC hT
    simp only [List.range'_zero, List.map_nil, List.foldl_nil, Nat.add_zero]
    exact ⟨by rw [hA, Nat.zero_add], hS, hC, hT⟩
  | succ k ih =>
    intro a m w hA hS hC hT
    rw [List.range'_succ, List.map_cons, List.foldl_cons]
    have hA' : w.alive = a :: List.range' (a + 1) (k + m) := by
      rw [hA, Nat.succ_add, List.range'_succ]
    have hmem : a ∈ w.alive := by rw [hA']; exact List.mem_cons_self _ _
    have hd : World.applyOp w (Cmd.destroy a) =
        { w with
          store := [], alive := w.alive.erase a, free := w.free ++ [a], cache := [] } := by
      show (w.destroy a).1 = _
      exact destroy_now_empty_store w a hT hmem hS
    rw [hd]
    have herase : w.alive.erase a = List.range' (a + 1) (k + m) := by
      rw [hA', List.erase_cons_head]
    have hres := ih (a + 1) m { w with
        store := [], alive := w.alive.erase a, free := w.free ++ [a], cache := [] }
      (by rw [herase]) rfl (by rw [hC]) (by rw [hT])
    have harith : a + 1 + k = a + (k + 1) := by omega
    rw [harith] at hres
    exact hres


theorem tick_destroy_queue (w : World) (sched : World → World) (a n m : Nat)
    (hsched : sched { w with step := w.step + 1, inTick := true }
        = { w with step := w.step + 1, inTick := true,
                   cmd := (List.range' a (n + m)).map Cmd.destroy })
    (halive : w.alive = List.range' a (n + m))
    (hstore : w.store = [])
    (hne : 0 < n + m)
    (hmin : min 1000 (n + m) = n) :
    ((w.tick (some sched)).1.alive = List.range' (a + n) m)
    ∧ ((w.tick (some sched)).1.cmd = (List.range' (a + n) m).map Cmd.destroy)
    ∧ ((w.tick (some sched)).1.store = [])
    ∧ ((w.tick (some sched)).1.inTick = false) := by
  have hsplit : List.range' a (n + m) = List.range' a n ++ List.range' (a + n) m := by
    have h := List.range'_append a n m 1
    simp only [one_mul] at h
    rw [Nat.add_comm m n] at h
    exact h.symm
  unfold World.tick
  simp only
  rw [hsched]
  unfold World.flushCmds
  have hQne : (((List.range' a (n + m)).map Cmd.destroy).isEmpty) = false := by
    simp [List.isEmpty_iff, List.range'_eq_nil]
    omega
  have hlen : ((List.range' a (n + m)).map Cmd.destroy).length = n + m := by
    simp [List.length_map, List.length_range']
  have htake : ((List.range' a (n + m)).map Cmd.destroy).take n
      = (List.range' a n).map Cmd.destroy := by
    rw [hsplit, List.map_append]
    exact List.take_left' (by simp [List.length_map, List.length_range'])
  have hdrop : ((List.range' a (n + m)).map Cmd.destroy).drop n
      = (List.range' (a + n) m).map Cmd.destroy := by
    rw [hsplit, List.map_append]
    exact List.drop_left' (by simp [List.length_map, List.length_range'])
  simp only [hQne, Bool.false_eq_true, if_false, hlen, hmin, htake, hdrop]
  have hchain := applyOp_destroy_chain n a m
    { w with step := w.step + 1, cmd := [], inTick := false }
    halive hstore rfl rfl
  exact ⟨hchain.1, by rw [hchain.2.2.1, List.nil_append], hchain.2.1, trivial⟩


/-- C8: the deferred flush drains at most 1000 queued operations in FIFO
order, leaving the excess queued in order for the next tick. In the
concrete scenario from the spec: 1001 entities are created; one scheduler
call issues 1001 `destroy` calls, all deferred; after the first `tick`
exactly 1 entity (id 1001, the last queued) remains alive and exactly 1
operation remains queued; after a second `tick` with a no-op scheduler, 0
entities remain alive and the queue is empty. -/
theorem c8_flush_cap_1000_fifo :
    (((createN initWorld 1001).tick (some (schedDestroyList (List.range' 1 1001)))).1.alive.length = 1)
    ∧ (((createN initWorld 1001).tick (some (schedDestroyList (List.range' 1 1001)))).1.cmd.length = 1)
    ∧ ((((createN initWorld 1001).tick
          (some (schedDestroyList (List.range' 1 1001)))).1.tick (some (fun x => x))).1.alive.length = 0)
    ∧ ((((createN initWorld 1001).tick
          (some (schedDestroyList (List.range' 1 1001)))).1.tick (some (fun x => x))).1.cmd.length = 0) := by
  rw [createN_init 1001]
  have hsched1 : schedDestroyList (List.range' 1 1001)
      { ({ alive := List.range' 1 1001, nextId := 1002 } : World) with
        step := ({ alive := List.range' 1 1001, nextId := 1002 } : World).step + 1, inTick := true }
      = { ({ alive := List.range' 1 1001, nextId := 1002 } : World) with
          step := ({ alive := List.range' 1 1001, nextId := 1002 } : World).step + 1, inTick := true,
          cmd := (List.range' 1 (1000 + 1)).map Cmd.destroy } := by
    rw [schedDestroyList_defer (List.range' 1 1001) _ rfl rfl (fun i hi => hi)]
    rfl
  have h1 := tick_destroy_queue { alive := List.range' 1 1001, nextId := 1002 }
    (schedDestroyList (List.range' 1 1001)) 1 1000 1 hsched1 rfl rfl (by norm_num) (by norm_num)
  obtain ⟨h1a, h1c, h1s, -⟩ := h1
  set r1 := (({ alive := List.range' 1 1001, nextId := 1002 } : World).tick
      (some (schedDestroyList (List.range' 1 1001)))).1 with hr1
  have h1a' : r1.alive = List.range' 1001 (1 + 0) := h1a
  have h1c' : r1.cmd = (List.range' 1001 (1 + 0)).map Cmd.destroy := h1c
  have hsched2 : (fun x => x) { r1 with step := r1.step + 1, inTick := true }
      = { r1 with step := r1.step + 1, inTick := true,
                  cmd := (List.range' 1001 (1 + 0)).map Cmd.destroy } := by
    show { r1 with step := r1.step + 1, inTick := true } = _
    rw [← h1c']
  have h2 := tick_destroy_queue r1 (fun x => x) 1001 1 0 hsched2 h1a' h1s
    (by norm_num) (by norm_num)
  refine ⟨?_, ?_, ?_, ?_⟩
  · rw [h1a]
    simp
  · rw [h1c']
    simp
  · rw [h2.1]
    simp
  · rw [h2.2.1]
    simp

/-! ## Claim C9 support: invariant preservation lemmas -/

theorem mem_set_add (l : List Nat) (x : Nat) {a : Nat} (ha : a ∈ l) :
    a ∈ (if x ∈ l then l else l ++ [x]) := by
  by_cases hx : x ∈ l
  · simpa [hx] using ha
  · simp only [hx, if_false]
    exact List.mem_append_left _ ha

theorem set_add_nodup (l : List Nat) (x : Nat) (h : l.Nodup) :
    (if x ∈ l then l else l ++ [x]).Nodup := by
  by_cases hx : x ∈ l
  · simpa [hx] using h
  · simp only [hx, if_false]
    rw [List.nodup_append]
    exact ⟨h, List.nodup_singleton x, fun a ha hb => by simp at hb; subst hb; exact hx ha⟩

theorem inv_pushCmd {w : World} (c : Cmd) (h : Inv w) : Inv (w.pushCmd c) := h

theorem inv_markChanged {w : World} (ck id : Nat) (h : Inv w) : Inv (w.markChanged ck id) := by
  unfold Inv RecordsAlive StoresNodup at h ⊢
  rw [World.markChanged_store, World.markChanged_alive]
  exact h

theorem inv_handleStrict {w : World} (op : String) (fb : World → World)
    (hfb : ∀ w', Inv w' → Inv (fb w')) (h : Inv w) :
    Inv (w.handleStrictDuringTick op fb).1 := by
  unfold World.handleStrictDuringTick
  cases w.strictHandler with
  | none => exact h
  | some hh =>
    simp only
    rcases hr : hh ⟨op, op ++ ": structural mutation during tick (strict)"⟩ with ⟨cd, r⟩
    cases r <;> cases cd <;>
      simp only [if_true, if_false, Bool.true_eq_false] <;>
      first
        | exact h
        | exact hfb w h

theorem mapFor_inv (w : World) (c : Comp) (h : Inv w) :
    Inv (w.mapFor c).1
    ∧ (w.mapFor c).1.alive = w.alive
    ∧ (∀ q ∈ (w.mapFor c).2, (q.1 : Nat) ∈ w.alive)
    ∧ (((w.mapFor c).2).map Prod.fst).Nodup := by
  unfold World.mapFor
  cases hs : alookup w.store c.key with
  | none =>
    simp only
    refine ⟨⟨?_, ?_, h.2.2⟩, trivial, by simp, by simp⟩
    · intro p hp q hq
      rcases List.mem_append.1 hp with hp | hp
      · exact h.1 p hp q hq
      · simp only [List.mem_singleton] at hp
        subst hp
        simp at hq
    · intro p hp
      rcases List.mem_append.1 hp with hp | hp
      · exact h.2.1 p hp
      · simp only [List.mem_singleton] at hp
        subst hp
        simp
  | some s =>
    have hmem := alookup_mem hs
    exact ⟨h, rfl, fun q hq => h.1 _ hmem q hq, h.2.1 _ hmem⟩

theorem inv_putStore (w : World) (k : Nat) (s : StoreMap)
    (h : Inv w) (hq : ∀ q ∈ s, (q.1 : Nat) ∈ w.alive) (hnd : (s.map Prod.fst).Nodup) :
    Inv (w.putStore k s) := by
  unfold World.putStore
  refine ⟨?_, ?_, h.2.2⟩
  · intro p hp q hqq
    rcases mem_aset hp with rfl | hp
    · exact hq q hqq
    · exact h.1 p hp q hqq
  · intro p hp
    rcases mem_aset hp with rfl | hp
    · exact hnd
    · exact h.2.1 p hp

theorem inv_create (w : World) (h : Inv w) : Inv (w.create).1 := by
  unfold World.create
  cases w.free.getLast? with
  | some id =>
    exact ⟨fun p hp q hq => mem_set_add _ _ (h.1 p hp q hq), h.2.1,
      set_add_nodup _ _ h.2.2⟩
  | none =>
    exact ⟨fun p hp q hq => mem_set_add _ _ (h.1 p hp q hq), h.2.1,
      set_add_nodup _ _ h.2.2⟩

theorem foldl_mark_eq : ∀ (pairs : List (Nat × (StoreMap × Bool))) (w : World) (id : Nat),
    ∃ ch, pairs.foldl (fun acc p => if p.2.2 then acc.markChanged p.1 id else acc) w
      = { w with changed := ch } := by
  intro pairs
  induction pairs with
  | nil => exact fun w id => ⟨w.changed, rfl⟩
  | cons p rest ih =>
    intro w id
    rw [List.foldl_cons]
    by_cases hp : p.2.2 = true
    · simp only [hp, if_true]
      obtain ⟨ch1, hch1⟩ := (w.markChanged_eq p.1 id)
      rw [hch1]
      exact ih _ id
    · simp only [hp, if_false]
      exact ih w id

theorem destroyNow_eq (w : World) (id : Nat) : ∃ ch,
    w.destroyNow id = { w with
        store := w.store.map (fun p => (p.1, (adel p.2 id).1)),
        changed := ch,
        alive := w.alive.erase id,
        free := w.free ++ [id],
        cache := [] } := by
  unfold World.destroyNow
  simp only
  obtain ⟨ch, hch⟩ := foldl_mark_eq (w.store.map fun p => (p.1, adel p.2 id)) _ id
  rw [hch]
  refine ⟨ch, ?_⟩
  rw [List.map_map]
  rfl


theorem inv_destroyNow (w : World) (id : Nat) (h : Inv w) :
    Inv (w.destroyNow id)
    ∧ id ∉ (w.destroyNow id).alive
    ∧ ∀ p ∈ (w.destroyNow id).store, ∀ q ∈ (p.2 : StoreMap), (q.1 : Nat) ≠ id := by
  obtain ⟨ch, hch⟩ := destroyNow_eq w id
  rw [hch]
  have hpur : ∀ p ∈ w.store.map (fun p => (p.1, (adel p.2 id).1)),
      ∀ q ∈ (p.2 : StoreMap), (q.1 : Nat) ∈ w.alive ∧ (q.1 : Nat) ≠ id := by
    intro p hp q hq
    obtain ⟨p0, hp0, rfl⟩ := List.mem_map.1 hp
    refine ⟨h.1 p0 hp0 q (mem_adel hq), ?_⟩
    exact mem_key_ne_of_alookup_none hq (alookup_adel_self id (h.2.1 p0 hp0))
  refine ⟨⟨?_, ?_, List.Nodup.erase id h.2.2⟩, List.Nodup.not_mem_erase h.2.2, ?_⟩
  · intro p hp q hq
    have hc := hpur p hp q hq
    exact (List.mem_erase_of_ne hc.2).2 hc.1
  · intro p hp
    obtain ⟨p0, hp0, rfl⟩ := List.mem_map.1 hp
    exact keys_adel_nodup id (h.2.1 p0 hp0)
  · intro p hp q hq
    exact (hpur p hp q hq).2

theorem inv_destroy (w : World) (id : Nat) (h : Inv w) : Inv (w.destroy id).1 := by
  unfold World.destroy
  by_cases ha : id ∈ w.alive
  · by_cases ht : w.inTick = true
    · by_cases hst : w.strict = true
      · have hh := inv_handleStrict "destroy" _
          (fun w' hw' => inv_pushCmd (Cmd.destroy id) hw') h
        rcases he : w.handleStrictDuringTick "destroy"
            (fun w0 => w0.pushCmd (Cmd.destroy id)) with ⟨w1, r⟩
        rw [he] at hh
        simp only [ha, if_true, ht, hst, he]
        cases r with
        | error e => exact hh
        | ok o => exact hh
      · simp [ha, ht, hst]
        exact inv_pushCmd _ h
    · simp [ha, ht]
      exact (inv_destroyNow w id h).1
  · simp [ha]
    exact h

theorem getW_some {w : World} {id : Nat} {c : Comp} {w1 : World} {r : Rcd}
    (h : w.getW id c = (w1, some r)) :
    w1 = w ∧ ∃ s, alookup w.store c.key = some s ∧ alookup s id = some r := by
  unfold World.getW World.mapFor at h
  cases hs : alookup w.store c.key with
  | none =>
    rw [hs] at h
    simp only [Prod.mk.injEq] at h
    exact absurd h.2 (by simp [alookup])
  | some s =>
    rw [hs] at h
    simp only [Prod.mk.injEq] at h
    exact ⟨h.1.symm, s, rfl, h.2⟩

theorem inv_set (w : World) (id : Nat) (c : Comp) (patch : Rcd) (h : Inv w) :
    Inv (w.set id c patch).1 := by
  unfold World.set
  by_cases ht : w.inTick = true
  · by_cases hst : w.strict = true
    · have hh := inv_handleStrict "set" _
        (fun w' hw' => inv_pushCmd (Cmd.set id c patch) hw') h
      rcases he : w.handleStrictDuringTick "set"
          (fun w0 => w0.pushCmd (Cmd.set id c patch)) with ⟨w1, r⟩
      rw [he] at hh
      simp only [ht, if_true, hst, he]
      cases r with
      | error e => exact hh
      | ok o => exact hh
    · simp [ht, hst]
      exact inv_pushCmd _ h
  · simp only [ht, Bool.false_eq_true, if_false]
    split
    next w1 heq =>
      have hw1 : w1 = (w.getW id c).1 := by rw [heq]
      rw [hw1]
      exact (mapFor_inv w c h).1
    next w1 r heq =>
      obtain ⟨hw1, s, hsk, hsr⟩ := getW_some heq
      rw [hw1]
      have hmf : w.mapFor c = (w, s) := by unfold World.mapFor; rw [hsk]
      have hmem_s : (c.key, s) ∈ w.store := alookup_mem hsk
      have hid : id ∈ w.alive := h.1 _ hmem_s _ (alookup_mem hsr)
      by_cases hfn : rcdHasFn (mergeRcd r patch) = true
      · simp [hfn]
        exact h
      · by_cases hv : World.validateFails c (mergeRcd r patch) = true
        · simp [hfn, hv]
          exact h
        · simp only [hfn, hv, Bool.false_eq_true, if_false]
          rw [hmf]
          apply inv_markChanged
          apply inv_putStore w c.key _ h ?_ ?_
          · intro q hq
            rcases mem_aset hq with rfl | hq
            · exact hid
            · exact h.1 _ hmem_s q hq
          · exact keys_aset_nodup id _ (h.2.1 _ hmem_s)

theorem inv_mutate (w : World) (id : Nat) (c : Comp) (f : Rcd → Rcd) (h : Inv w) :
    Inv (w.mutate id c f).1 := by
  unfold World.mutate
  by_cases ht : w.inTick = true
  · by_cases hst : w.strict = true
    · have hh := inv_handleStrict "mutate" _
        (fun w' hw' => inv_pushCmd (Cmd.mutate id c f) hw') h
      rcases he : w.handleStrictDuringTick "mutate"
          (fun w0 => w0.pushCmd (Cmd.mutate id c f)) with ⟨w1, r⟩
      rw [he] at hh
      simp only [ht, if_true, hst, he]
      cases r with
      | error e => exact hh
      | ok o => exact hh
    · simp [ht, hst]
      exact inv_pushCmd _ h
  · simp only [ht, Bool.false_eq_true, if_false]
    split
    next w1 heq =>
      have hw1 : w1 = (w.getW id c).1 := by rw [heq]
      rw [hw1]
      exact (mapFor_inv w c h).1
    next w1 r heq =>
      obtain ⟨hw1, s, hsk, hsr⟩ := getW_some heq
      rw [hw1]
      have hmf : w.mapFor c = (w, s) := by unfold World.mapFor; rw [hsk]
      have hmem_s : (c.key, s) ∈ w.store := alookup_mem hsk
      have hid : id ∈ w.alive := h.1 _ hmem_s _ (alookup_mem hsr)
      have hw2 : Inv (w.putStore c.key (aset s id (f r))) := by
        apply inv_putStore w c.key _ h ?_ ?_
        · intro q hq
          rcases mem_aset hq with rfl | hq
          · exact hid
          · exact h.1 _ hmem_s q hq
        · exact keys_aset_nodup id _ (h.2.1 _ hmem_s)
      rw [hmf]
      by_cases hfn : rcdHasFn (f r) = true
      · simp [hfn]
        exact hw2
      · simp [hfn]
        exact inv_markChanged _ _ hw2

theorem inv_add (w : World) (id : Nat) (c : Comp) (data : Rcd) (h : Inv w) :
    Inv (w.add id c data).1 := by
  unfold World.add
  by_cases ha : id ∈ w.alive
  · by_cases ht : w.inTick = true
    · by_cases hst : w.strict = true
      · have hh := inv_handleStrict "add" _
          (fun w' hw' => inv_pushCmd (Cmd.add id c data) hw') h
        rcases he : w.handleStrictDuringTick "add"
            (fun w0 => w0.pushCmd (Cmd.add id c data)) with ⟨w1, r⟩
        rw [he] at hh
        simp only [ha, if_true, ht, hst, he]
        cases r with
        | error e => exact hh
        | ok o => exact hh
      · simp [ha, ht, hst]
        exact inv_pushCmd _ h
    · simp only [ha, if_true, ht, Bool.false_eq_true, if_false]
      have hb := mapFor_inv w c h
      by_cases hfn : rcdHasFn (mergeRcd (deepCloneRcd c.defaults) (deepCloneRcd data)) = true
      · simp [hfn]
        exact h
      · by_cases hv : World.validateFails c
            (mergeRcd (deepCloneRcd c.defaults) (deepCloneRcd data)) = true
        · simp [hfn, hv]
          exact h
        · simp only [hfn, hv, Bool.false_eq_true, if_false]
          have hgoal : Inv (((w.mapFor c).1.putStore c.key
              (aset (w.mapFor c).2 id
                (mergeRcd (deepCloneRcd c.defaults) (deepCloneRcd data)))).markChanged
              c.key id) := by
            apply inv_markChanged
            apply inv_putStore (w.mapFor c).1 c.key _ hb.1 ?_ ?_
            · intro q hq
              rw [hb.2.1]
              rcases mem_aset hq with rfl | hq
              · exact ha
              · exact hb.2.2.1 q hq
            · exact keys_aset_nodup id _ hb.2.2.2
          exact hgoal
  · simp [ha]
    exact h

theorem inv_remove (w : World) (id : Nat) (c : Comp) (h : Inv w) :
    Inv (w.remove id c).1 := by
  unfold World.remove
  by_cases ht : w.inTick = true
  · by_cases hst : w.strict = true
    · have hh := inv_handleStrict "remove" _
        (fun w' hw' => inv_pushCmd (Cmd.remove id c) hw') h
      rcases he : w.handleStrictDuringTick "remove"
          (fun w0 => w0.pushCmd (Cmd.remove id c)) with ⟨w1, r⟩
      rw [he] at hh
      simp only [ht, if_true, hst, he]
      cases r with
      | error e => exact hh
      | ok o => exact hh
    · simp [ht, hst]
      exact inv_pushCmd _ h
  · simp only [ht, Bool.false_eq_true, if_false]
    have hb := mapFor_inv w c h
    have hps : Inv ((w.mapFor c).1.putStore c.key (adel (w.mapFor c).2 id).1) := by
      apply inv_putStore (w.mapFor c).1 c.key _ hb.1 ?_ ?_
      · intro q hq
        rw [hb.2.1]
        exact hb.2.2.1 q (mem_adel hq)
      · exact keys_adel_nodup id hb.2.2.2
    by_cases hd : (adel (w.mapFor c).2 id).2 = true
    · simp [hd]
      exact inv_markChanged _ _ hps
    · simp [hd]
      exact hps


theorem inv_applyOp (w : World) (cmd : Cmd) (h : Inv w) : Inv (w.applyOp cmd) := by
  cases cmd with
  | destroy id => exact inv_destroy w id h
  | add id c data => exact inv_add w id c data h
  | remove id c => exact inv_remove w id c h
  | set id c patch => exact inv_set w id c patch h
  | mutate id c f => exact inv_mutate w id c f h

theorem inv_foldl_applyOp : ∀ (cmds : List Cmd) (w : World), Inv w →
    Inv (cmds.foldl World.applyOp w) := by
  intro cmds
  induction cmds with
  | nil => exact fun w h => h
  | cons cmd rest ih =>
    intro w h
    rw [List.foldl_cons]
    exact ih _ (inv_applyOp w cmd h)

theorem inv_flushCmds (w : World) (h : Inv w) : Inv w.flushCmds := by
  unfold World.flushCmds
  by_cases hc : w.cmd.isEmpty = true
  · simp [hc]
    exact h
  · simp only [hc, Bool.false_eq_true, if_false]
    exact inv_foldl_applyOp _ { w with cmd := [], inTick := false } h

theorem inv_tick (w : World) (sched : World → World)
    (hs : ∀ w', Inv w' → Inv (sched w')) (h : Inv w) : Inv (w.tick (some sched)).1 := by
  unfold World.tick
  simp only
  exact inv_flushCmds _ (hs { w with step := w.step + 1, inTick := true } h)

/-! ## Claim C9: component records exist only under alive ids, and an
immediate destroy purges atomically -/

/-- C9: the records-only-under-alive-ids invariant (`Inv`: every entity id
holding a record in any store is alive; stores and the alive set are
duplicate-free, as JS `Map`/`Set` keys are) holds in the fresh world and
is preserved by every operation — `create`, `add` (which throws on a dead
id), `remove`, `set`, `mutate`, `destroy` (deferred, strict-handled, or
immediate), and a whole `tick` with any invariant-preserving scheduler,
its bounded flush included — so no reachable state stores a record under a
dead id. Moreover a successful immediate `destroy` removes the id from the
alive set and deletes its record from every component store within the
same operation: the resulting state has the id dead and recordless. -/
theorem c9_records_only_under_alive_ids :
    Inv initWorld
    ∧ (∀ w : World, Inv w → Inv (w.create).1)
    ∧ (∀ (w : World) (id : Nat) (c : Comp) (data : Rcd), Inv w → Inv (w.add id c data).1)
    ∧ (∀ (w : World) (id : Nat) (c : Comp), Inv w → Inv (w.remove id c).1)
    ∧ (∀ (w : World) (id : Nat) (c : Comp) (patch : Rcd), Inv w → Inv (w.set id c patch).1)
    ∧ (∀ (w : World) (id : Nat) (c : Comp) (f : Rcd → Rcd), Inv w → Inv (w.mutate id c f).1)
    ∧ (∀ (w : World) (id : Nat), Inv w → Inv (w.destroy id).1)
    ∧ (∀ (w : World) (sched : World → World),
        (∀ w', Inv w' → Inv (sched w')) → Inv w → Inv (w.tick (some sched)).1)
    ∧ (∀ w : World, Inv w → ∀ p ∈ w.store, ∀ q ∈ (p.2 : StoreMap), (q.1 : Nat) ∈ w.alive)
    ∧ (∀ (w : World) (id : Nat), Inv w → w.inTick = false → id ∈ w.alive →
        (w.destroy id).2 = .ok (some true)
        ∧ id ∉ (w.destroy id).1.alive
        ∧ ∀ p ∈ (w.destroy id).1.store, ∀ q ∈ (p.2 : StoreMap), (q.1 : Nat) ≠ id) := by
  refine ⟨⟨fun p hp => absurd hp (List.not_mem_nil p), fun p hp => absurd hp (List.not_mem_nil p),
      List.nodup_nil⟩,
    inv_create, fun w id c data => inv_add w id c data,
    fun w id c => inv_remove w id c, fun w id c patch => inv_set w id c patch,
    fun w id c f => inv_mutate w id c f, fun w id => inv_destroy w id,
    fun w sched hs h => inv_tick w sched hs h,
    fun w h => h.1, ?_⟩
  intro w id h hT ha
  have hd := inv_destroyNow w id h
  have he : w.destroy id = (w.destroyNow id, .ok (some true)) := by
    unfold World.destroy
    simp [ha, hT]
  rw [he]
  exact ⟨rfl, hd.2.1, hd.2.2⟩

/-- C9 witness: the invariant holds for the fresh world, and an immediate
`destroy` of entity 1 in `wC10` (alive, holding a `compX` record) reports
success, leaves 1 dead, and leaves no store holding a record for 1. -/
theorem c9_witness :
    Inv initWorld
    ∧ ((wC10.destroy 1).2 = .ok (some true)
        ∧ 1 ∉ (wC10.destroy 1).1.alive
        ∧ ∀ p ∈ (wC10.destroy 1).1.store, ∀ q ∈ (p.2 : StoreMap), (q.1 : Nat) ≠ 1) := by
  have h := c9_records_only_under_alive_ids
  refine ⟨h.1, h.2.2.2.2.2.2.2.2.2 wC10 1 ?_ rfl (by decide)⟩
  unfold Inv RecordsAlive StoresNodup wC10
  refine ⟨?_, ?_, ?_⟩ <;> decide

end EcsJs
